import Mathlib

set_option autoImplicit false

/-!
Shallow embedding of the content-manager search engine: the frontmatter
parser, heading extractor, document loader and the search/filter
operations, together with theorems checking the specification's claims
against these definitions.  Scores and parsed floats are modelled as
exact rationals; JS strings are modelled as Lean strings (sequences of
characters).
-/

/-- The JavaScript regex whitespace class `\s` (also the character set
removed by `String.prototype.trim`). -/
def isWS (c : Char) : Bool :=
  c == ' ' || c == '\t' || c == '\n' || c == '\r' || c == '\x0b' || c == '\x0c' ||
  c == ' ' || c == ' ' ||
  (decide (' ' ≤ c) && decide (c ≤ ' ')) ||
  c == ' ' || c == ' ' || c == ' ' || c == ' ' ||
  c == '　' || c == '﻿'

/-- JavaScript line terminators (relevant to multiline `^`/`$` and `.`). -/
def isLineTerm (c : Char) : Bool :=
  c == '\n' || c == '\r' || c == ' ' || c == ' '

/-- Embedding of `String.prototype.toLowerCase` restricted to the ASCII
range (the only characters that survive the slug filter or take part in
the ASCII comparisons performed by the program). -/
def jsToLower (c : Char) : Char :=
  if 'A' ≤ c ∧ c ≤ 'Z' then Char.ofNat (c.toNat + 32) else c

/-- `toLowerCase` on a whole string. -/
def lowerStr (s : String) : String := String.mk (s.data.map jsToLower)

/-- Drop leading JS whitespace from a character list. -/
def dropWSLeft (l : List Char) : List Char := l.dropWhile isWS

/-- Embedding of `String.prototype.trim` on character lists. -/
def jsTrimL (l : List Char) : List Char :=
  ((l.dropWhile isWS).reverse.dropWhile isWS).reverse

/-- Embedding of `String.prototype.trim`. -/
def jsTrim (s : String) : String := String.mk (jsTrimL s.data)

/-- Does `l` contain `needle` as a contiguous sublist? -/
def containsL (needle : List Char) : List Char → Bool
  | [] => needle.isPrefixOf []
  | c :: t => needle.isPrefixOf (c :: t) || containsL needle t

/-- Embedding of `String.prototype.includes`. -/
def containsStr (hay needle : String) : Bool := containsL needle.data hay.data

/-- ASCII decimal digit (the JS regex class `\d`). -/
def isDigitCh (c : Char) : Bool := '0' ≤ c && c ≤ '9'

/-- Split a character list at every occurrence of the character `c`,
the embedding of `String.prototype.split` with a one-character
separator. -/
def splitCharAux (c : Char) : List Char → List (List Char)
  | [] => [[]]
  | x :: t =>
    let r := splitCharAux c t
    if x == c then [] :: r
    else
      match r with
      | [] => [[x]]
      | h :: t' => (x :: h) :: t'

/-- `String.prototype.split` with a one-character separator. -/
def splitChar (c : Char) (s : String) : List String :=
  (splitCharAux c s.data).map String.mk

/-- The single-quote character as a one-character string. -/
def squote : String := String.mk [Char.ofNat 39]

/-- Embedding of `String.prototype.startsWith`. -/
def startsWithStr (s p : String) : Bool := p.data.isPrefixOf s.data

/-- Embedding of `String.prototype.endsWith`. -/
def endsWithStr (s p : String) : Bool := p.data.reverse.isPrefixOf s.data.reverse

/-- Scalar values produced by the simple frontmatter YAML parser. -/
inductive YamlValue where
  | bool (b : Bool)
  | null
  | int (n : Nat)
  | float (q : ℚ)
  | str (s : String)
  deriving DecidableEq

/-- Embedding of `parseInt(value, 10)` on a string of decimal digits. -/
def digitsToNat (s : String) : Nat :=
  s.data.foldl (fun a c => a * 10 + (c.toNat - 48)) 0

/-- Does `s` match the regex `^\d+$`? -/
def isIntLit (s : String) : Bool := !s.isEmpty && s.data.all isDigitCh

/-- Does `s` match the regex `^\d+\.\d+$`? -/
def isFloatLit (s : String) : Bool :=
  match splitChar '.' s with
  | [a, b] => !a.isEmpty && a.data.all isDigitCh && !b.isEmpty && b.data.all isDigitCh
  | _ => false

/-- Embedding of `parseFloat` on a string matching `^\d+\.\d+$`, as an
exact rational. -/
def floatLitToRat (s : String) : ℚ :=
  match splitChar '.' s with
  | [a, b] => (digitsToNat a : ℚ) + (digitsToNat b : ℚ) / ((10 : ℚ) ^ b.length)
  | _ => 0

/-- The type-inference chain applied by `parseSimpleYaml` to each raw
(already trimmed) value, transcribed from the source's if/else chain. -/
def inferValue (v : String) : YamlValue :=
  if v = "true" then .bool true
  else if v = "false" then .bool false
  else if v = "null" then .null
  else if isIntLit v then .int (digitsToNat v)
  else if isFloatLit v then .float (floatLitToRat v)
  else if (startsWithStr v "\"" && endsWithStr v "\"") ||
      (startsWithStr v squote && endsWithStr v squote) then
    .str ((v.drop 1).dropRight 1)
  else .str v

/-- Value inference as worded by the spec: literal `true`/`false` gives a
boolean, literal `null` gives null, a `^\d+$` string gives an integer, a
`^\d+\.\d+$` string gives a float, and anything else stays a string with
one layer of surrounding matching quotes stripped if present; each rule
applies only when every earlier rule failed. -/
def specInferValue (v : String) : YamlValue :=
  if v = "true" ∨ v = "false" then .bool (v = "true")
  else if v = "null" then .null
  else if isIntLit v then .int (digitsToNat v)
  else if isFloatLit v then .float (floatLitToRat v)
  else
    .str (if (startsWithStr v "\"" && endsWithStr v "\"") ||
          (startsWithStr v squote && endsWithStr v squote)
          then (v.drop 1).dropRight 1 else v)

/-- One line of the frontmatter body: skip blank lines, `#` comments and
lines without `:`; otherwise split at the first `:` and infer the value
type. -/
def parseLine (line : String) : Option (String × YamlValue) :=
  let t := jsTrim line
  if t.isEmpty then none
  else if startsWithStr t "#" then none
  else
    match t.data.findIdx? (· == ':') with
    | none => none
    | some i =>
      let key := jsTrim (t.take i)
      let v := jsTrim (t.drop (i + 1))
      some (key, inferValue v)

/-- Assignment to a JS object key: overwrite in place if the key is
present, otherwise append (insertion order preserved). -/
def setKey : List (String × YamlValue) → String → YamlValue → List (String × YamlValue)
  | [], k, v => [(k, v)]
  | (k', v') :: rest, k, v =>
    if k' = k then (k', v) :: rest else (k', v') :: setKey rest k v

/-- Property lookup on the object produced by `setKey` assignments. -/
def lookupKey (m : List (String × YamlValue)) (k : String) : Option YamlValue :=
  (m.find? (fun p => p.1 == k)).map Prod.snd

/-- Embedding of `parseSimpleYaml`: split on newlines and fold the kept
`key: value` lines into a JS-object-like association list. -/
def parseSimpleYaml (yaml : String) : List (String × YamlValue) :=
  (splitChar '\n' yaml).foldl
    (fun acc line =>
      match parseLine line with
      | none => acc
      | some (k, v) => setKey acc k v)
    []

/-- The kept `key: value` pairs of a frontmatter body, in line order. -/
def keptPairs (yaml : String) : List (String × YamlValue) :=
  (splitChar '\n' yaml).filterMap parseLine

/-- The value bound by the last pair with key `k`, in pair order. -/
def lastVal (pairs : List (String × YamlValue)) (k : String) : Option YamlValue :=
  ((pairs.filter (fun p => p.1 == k)).getLast?).map Prod.snd

/-- Index of the last occurrence of `c` in `l`. -/
def lastIdxOf (c : Char) : List Char → Option Nat
  | [] => none
  | x :: t =>
    match lastIdxOf c t with
    | some i => some (i + 1)
    | none => if x == c then some 0 else none

/-- Try to match the closing delimiter pattern `\n---\s*\n` at the head
of `l`; the greedy `\s*` consumes the leading whitespace run up to its
last newline.  Returns the consumed characters and the rest. -/
def tryCloseAt : List Char → Option (List Char × List Char)
  | c1 :: c2 :: c3 :: c4 :: t =>
    if c1 = '\n' ∧ c2 = '-' ∧ c3 = '-' ∧ c4 = '-' then
      match lastIdxOf '\n' (t.takeWhile isWS) with
      | some i => some (c1 :: c2 :: c3 :: c4 :: t.take (i + 1), t.drop (i + 1))
      | none => none
    else none
  | _ => none

/-- Lazy scan (shortest group first) for the first position where the
closing delimiter matches; returns (group, consumed closing, rest). -/
def findClose : List Char → Option (List Char × List Char × List Char)
  | [] => none
  | c :: t =>
    match tryCloseAt (c :: t) with
    | some (cl, rest) => some ([], cl, rest)
    | none =>
      match findClose t with
      | some (g, cl, rest) => some (c :: g, cl, rest)
      | none => none

/-- Greedy backtracking over the candidate lengths of the opening `\s*`
(largest first): for each newline position, attempt the lazy group and
closing delimiter on the remainder. -/
def tryIdxs : List Nat → List Char → Option (Nat × List Char × List Char × List Char)
  | [], _ => none
  | i :: is, t =>
    match findClose (t.drop (i + 1)) with
    | some (g, cl, rest) => some (i, g, cl, rest)
    | none => tryIdxs is t

/-- The newline positions of the character list `r`, largest first. -/
def nlIdxsDesc (r : List Char) : List Nat :=
  ((List.range r.length).filter (fun j => r.get? j == some '\n')).reverse

/-- Embedding of the anchored frontmatter regex
`/^---\s*\n([\s\S]*?)\n---\s*\n/` with JS backtracking semantics:
on a match, returns the opening whitespace (including the final
newline), the captured group, the consumed closing delimiter, and the
rest of the string after the match. -/
def matchFM (s : String) : Option (List Char × List Char × List Char × List Char) :=
  match s.data with
  | c1 :: c2 :: c3 :: t =>
    if c1 = '-' ∧ c2 = '-' ∧ c3 = '-' then
      match tryIdxs (nlIdxsDesc (t.takeWhile isWS)) t with
      | some (i, g, cl, rest) => some (t.take (i + 1), g, cl, rest)
      | none => none
    else none
  | _ => none

/-- Embedding of `extractFrontmatter`: when the regex matches, parse the
captured group with `parseSimpleYaml` and return the text after the
match (`content.slice(match[0].length)`); otherwise return an empty
mapping and the input unchanged.  (`parseSimpleYaml` is total, so the
source's try/catch never fires.) -/
def extractFrontmatter (s : String) : List (String × YamlValue) × String :=
  match matchFM s with
  | some (_, g, _, rest) => (parseSimpleYaml (String.mk g), String.mk rest)
  | none => ([], s)

/-- A well-formed frontmatter delimiter block: `---`, optional
whitespace, a newline, an arbitrary group, a newline, `---`, optional
whitespace, a final newline. -/
def IsFMBlock (block : List Char) : Prop :=
  ∃ w g w2, (∀ c ∈ w, isWS c = true) ∧ (∀ c ∈ w2, isWS c = true) ∧
    block = ['-', '-', '-'] ++ w ++ ['\n'] ++ g ++ ['\n', '-', '-', '-'] ++ w2 ++ ['\n']

/-- The input text begins with a well-formed frontmatter block. -/
def HasLeadingFMBlock (s : String) : Prop :=
  ∃ block rest, s.data = block ++ rest ∧ IsFMBlock block

/-- Split text at every JS line terminator: the multiline anchors `^`/`$`
of the heading regex match exactly at these boundaries, and `.` matches
no terminator, so the global scan is a per-line scan. -/
def splitLinesAux : List Char → List (List Char)
  | [] => [[]]
  | c :: t =>
    let r := splitLinesAux t
    if isLineTerm c then [] :: r
    else
      match r with
      | [] => [[c]]
      | h :: t' => (c :: h) :: t'

/-- The lines of a text, in the sense of the multiline heading regex. -/
def splitLines (s : String) : List (List Char) := splitLinesAux s.data

/-- One extracted heading: level, trimmed text and slug id. -/
structure Heading where
  level : Nat
  text : String
  id : String
  deriving DecidableEq

/-- The JS regex word class `\w` = `[A-Za-z0-9_]`. -/
def isWordCh (c : Char) : Bool :=
  (decide ('a' ≤ c) && decide (c ≤ 'z')) || (decide ('A' ≤ c) && decide (c ≤ 'Z')) ||
  (decide ('0' ≤ c) && decide (c ≤ '9')) || c == '_'

/-- Replace every whitespace run by a single hyphen
(`.replace(/\s+/g, '-')`); the flag records whether the scan is inside a
run already rewritten to a hyphen. -/
def collapseWSAux : Bool → List Char → List Char
  | _, [] => []
  | inRun, c :: t =>
    if isWS c then
      if inRun then collapseWSAux true t else '-' :: collapseWSAux true t
    else c :: collapseWSAux false t

/-- Slug derivation from (already trimmed) heading text: lowercase,
delete every character that is not a word character, whitespace or
hyphen (`.replace(/[^\w\s-]/g, '')`), then collapse whitespace runs to
single hyphens. -/
def slugOf (text : String) : String :=
  String.mk (collapseWSAux false
    ((text.data.map jsToLower).filter (fun c => isWordCh c || isWS c || c == '-')))

/-- Try the heading regex `^(#{1,6})\s+(.+)$` on one terminator-free
line: 1-6 leading hashes, then at least one whitespace character, then
at least one further character of any kind; the greedy `\s+` backtracks
just enough to leave `(.+)` nonempty, so the capture starts at the first
non-whitespace character, or consists of exactly the final character
when only whitespace follows the hashes.  The emitted heading carries
the trimmed capture and its slug. -/
def headingRest (k : Nat) (rest : List Char) : Option Heading :=
  match rest with
  | c :: _ :: _ =>
    if isWS c then
      let j := min ((rest.takeWhile isWS).length) (rest.length - 1)
      let txt := String.mk (jsTrimL (rest.drop j))
      some ⟨k, txt, slugOf txt⟩
    else none
  | _ => none

def lineHeading (l : List Char) : Option Heading :=
  let k := (l.takeWhile (· == '#')).length
  if 1 ≤ k ∧ k ≤ 6 then headingRest k (l.drop k) else none

/-- Embedding of `extractHeadings`: run the heading pattern on every
line of the content. -/
def extractHeadings (content : String) : List Heading :=
  (splitLines content).filterMap lineHeading

/-- One rendered table-of-contents entry. -/
def tocEntry (h : Heading) : String :=
  String.mk (List.flatten (List.replicate (h.level - 1) [' ', ' '])) ++
    "- [" ++ h.text ++ "](#" ++ h.id ++ ")"

/-- Embedding of `generateTableOfContents`: `none` when there are no
headings, otherwise the fixed section title plus one indented link line
per heading. -/
def generateTableOfContents (content : String) : Option String :=
  let hs := extractHeadings content
  if hs.isEmpty then none
  else some ("## Table of Contents\n\n" ++ String.intercalate "\n" (hs.map tocEntry))

/-- JSON-like values as stored in a loaded file's frontmatter mapping
(the loader's YAML library may produce scalars or arrays). -/
inductive JVal where
  | str (s : String)
  | num (q : ℚ)
  | bool (b : Bool)
  | null
  | arr (xs : List JVal)

/-- JS truthiness of a frontmatter value (a string is truthy iff
non-empty, a number iff non-zero, an array always). -/
def jTruthy : JVal → Bool
  | .str s => !(s == "")
  | .num q => decide (q ≠ 0)
  | .bool b => b
  | .null => false
  | .arr _ => true

/-- The `ContentFile` entity: path, base name, body text, optional
frontmatter mapping, filesystem timestamp (milliseconds since the
epoch) and byte size.  The filesystem read/stat that populates it is
abstracted into the constructor arguments. -/
structure ContentFile where
  path : String
  name : String
  content : String
  frontmatter : Option (List (String × JVal))
  lastModified : Int
  size : Nat

/-- A search result: the file, a normalized score, and human-readable
match explanations. -/
structure SearchResult where
  file : ContentFile
  score : ℚ
  «matches» : List String

/-- JS property access `obj[k]` on a frontmatter mapping. -/
def jGet (fm : List (String × JVal)) (k : String) : Option JVal :=
  (fm.find? (fun p => p.1 == k)).map Prod.snd

/-- Stable insertion of `x` into a list sorted descending by `key`:
`x` goes before the first element whose key is not greater, so earlier
elements win ties. -/
def insDescBy {α β : Type} [LinearOrder β] (key : α → β) (x : α) : List α → List α
  | [] => [x]
  | y :: ys => if key x < key y then y :: insDescBy key x ys else x :: y :: ys

/-- Stable descending sort by a key: the embedding of JS
`Array.prototype.sort` with comparator `(a, b) => key(b) - key(a)`
(stable since ES2019); a stable sort is uniquely determined by the
comparator, so this insertion-sort formulation is faithful. -/
def sortDescBy {α β : Type} [LinearOrder β] (key : α → β) (l : List α) : List α :=
  l.foldr (insDescBy key) []

/-- The additive exact-search score of one document before the final
clamp: 0.4 for a filename hit, 0.1 per matching non-empty body line,
0.2 per matching string-valued frontmatter entry; the per-item
accumulation of the source loop is embedded as (number of hits) x
(weight). -/
def exactScoreCode (queryLower : String) (f : ContentFile) : ℚ :=
  (if containsStr (lowerStr f.name) queryLower then (0.4 : ℚ) else 0) +
    (((splitChar '\n' f.content).enum.filter
      (fun p => !(p.2 == "") && containsStr (lowerStr p.2) queryLower)).length : ℚ) * 0.1 +
    (((f.frontmatter.getD []).filter
      (fun kv => match kv.2 with
        | .str s => containsStr (lowerStr s) queryLower
        | _ => false)).length : ℚ) * 0.2

/-- One document's exact-search entry: the match list and the score of
`performExactSearch`'s scan loop clamped at 1, or `none` when there is
no match at all. -/
def exactEntry (queryLower : String) (includeContent : Bool) (f : ContentFile) :
    Option SearchResult :=
  let fnMatch := containsStr (lowerStr f.name) queryLower
  let fnMatches : List String := if fnMatch then ["Filename: " ++ f.name] else []
  let lines := splitChar '\n' f.content
  let lineHits := lines.enum.filter
    (fun p => !(p.2 == "") && containsStr (lowerStr p.2) queryLower)
  let lineMatches := lineHits.map (fun p => "Line " ++ toString (p.1 + 1) ++ ": " ++ jsTrim p.2)
  let fmHits := (f.frontmatter.getD []).filter
    (fun kv => match kv.2 with
      | .str s => containsStr (lowerStr s) queryLower
      | _ => false)
  let fmMatches := fmHits.map (fun kv => kv.1 ++ ": " ++
    (match kv.2 with | .str s => s | _ => ""))
  let ms := fnMatches ++ lineMatches ++ fmMatches
  if ms.isEmpty then none
  else some ⟨if includeContent then f else { f with content := "" },
    min (exactScoreCode queryLower f) 1, ms.take 5⟩

/-- The exact-search results in original scan order, before sorting. -/
def exactResults (files : List ContentFile) (query : String) (includeContent : Bool) :
    List SearchResult :=
  files.filterMap (exactEntry (lowerStr query) includeContent)

/-- Embedding of `performExactSearch`: scan every file, sort by
descending score (stable) and truncate to `maxResults`. -/
def performExactSearch (files : List ContentFile) (query : String) (maxResults : Nat)
    (includeContent : Bool) : List SearchResult :=
  (sortDescBy (fun r => r.score) (exactResults files query includeContent)).take maxResults

/-- One match record of the external fuzzy matcher (Fuse.js):
a matched field name and its value. -/
structure FuseMatch where
  key : String
  value : JVal

/-- One result of the external fuzzy matcher: the matched file, the raw
distance-like score (present because the search runs with
`includeScore: true`; the source's `result.score || 0` is the identity
on a present rational score), and the match records. -/
structure FuseResult where
  item : ContentFile
  score : ℚ
  «matches» : List FuseMatch

/-- `value.length > 100 ? value.substring(0, 100) + '...' : value`. -/
def truncate100 (v : String) : String :=
  if v.length > 100 then String.mk (v.data.take 100) ++ "..." else v

/-- Embedding of `extractMatches`: keep string-valued match records,
render "key: value" with the value truncated at 100 characters, and cap
at 5 entries. -/
def extractMatches (ms : List FuseMatch) : List String :=
  (ms.filterMap (fun m =>
    match m.value with
    | .str v => some (m.key ++ ": " ++ truncate100 v)
    | _ => none)).take 5

/-- Embedding of `performFuzzySearch` given the output of the external
fuzzy matcher (the library call `fuse.search(query, {limit})` is
abstracted into the `fuseResults` argument; the spec's contract for the
library - raw scores in [0,1] where 0 is best, results already sorted
by quality - appears as hypotheses of the theorems): each raw score is
inverted (`1 - rawScore`) so that higher is better. -/
def performFuzzySearch (fuseResults : List FuseResult) (includeContent : Bool) :
    List SearchResult :=
  fuseResults.map (fun r =>
    ⟨if includeContent then r.item else { r.item with content := "" },
      1 - r.score, extractMatches r.«matches»⟩)

/-- Normalize a frontmatter `tags` value to an array
(`Array.isArray(tags) ? tags : [tags]`). -/
def fileTags : JVal → List JVal
  | .arr xs => xs
  | v => [v]

/-- The tag test of `searchByTags` for one file: the frontmatter `tags`
value must exist and be truthy, and some desired tag must equal
(case-insensitively) some string-valued stored tag. -/
def hasMatchingTag (f : ContentFile) (tags : List String) : Bool :=
  match f.frontmatter with
  | none => false
  | some fm =>
    match jGet fm "tags" with
    | none => false
    | some v =>
      jTruthy v &&
        tags.any (fun tag => (fileTags v).any (fun ft =>
          match ft with
          | .str s => lowerStr s == lowerStr tag
          | _ => false))

/-- Embedding of `searchByTags` on an already-loaded document set (the
directory enumeration and per-file reads, with their skip-on-error
behaviour, are abstracted into the `files` list): filter by tag match,
then sort by `lastModified` descending. -/
def searchByTags (files : List ContentFile) (tags : List String) : List ContentFile :=
  sortDescBy (fun f => f.lastModified) (files.filter (fun f => hasMatchingTag f tags))

/-- Embedding of `searchByDateRange` on an already-loaded document set:
keep files with `startDate <= lastModified <= endDate` (both ends
inclusive), then sort by `lastModified` descending. -/
def searchByDateRange (files : List ContentFile) (startDate endDate : Int) :
    List ContentFile :=
  sortDescBy (fun f => f.lastModified)
    (files.filter (fun f =>
      decide (startDate ≤ f.lastModified) && decide (f.lastModified ≤ endDate)))

/-- `path.basename` for POSIX paths: the component after the last
slash. -/
def basename (p : String) : String := ((splitChar '/' p).getLast?).getD ""

/-- `path.extname`: from the last dot of the basename (a leading dot,
as in dotfiles, does not count). -/
def extname (p : String) : String :=
  let b := basename p
  match lastIdxOf '.' b.data with
  | some i => if i = 0 then "" else String.mk (b.data.drop i)
  | none => ""

/-- Embedding of `isMarkdownFile`: extension (lowercased) is one of
`.md`, `.markdown`, `.mdx`. -/
def isMarkdownFile (filename : String) : Bool :=
  let ext := lowerStr (extname filename)
  ext == ".md" || ext == ".markdown" || ext == ".mdx"

/-- Frontmatter scalars as loader values. -/
def yamlToJVal : YamlValue → JVal
  | .bool b => .bool b
  | .null => .null
  | .int n => .num n
  | .float q => .num q
  | .str s => .str s

/-- Modelled from the spec: the external YAML-frontmatter library
(gray-matter) that the loader calls as `matter(content)` is not part of
this repository; per the spec's loader contract ("run the Frontmatter
Parser to separate metadata from body") it is modelled by the
repository's own frontmatter parser `extractFrontmatter`. -/
def matterParse (content : String) : List (String × JVal) × String :=
  let parsed := extractFrontmatter content
  (parsed.1.map (fun q => (q.1, yamlToJVal q.2)), parsed.2)

/-- Embedding of `readContentFile`: the file's text, timestamp and size
arrive as arguments (the filesystem read/stat abstracted); frontmatter
is parsed only when the path ends in `.md` or `.markdown`. -/
def readContentFile (filePath content : String) (mtime : Int) (size : Nat) : ContentFile :=
  if endsWithStr filePath ".md" || endsWithStr filePath ".markdown" then
    let parsed := matterParse content
    { path := filePath, name := basename filePath, content := parsed.2,
      frontmatter := some parsed.1, lastModified := mtime, size := size }
  else
    { path := filePath, name := basename filePath, content := content,
      frontmatter := none, lastModified := mtime, size := size }

-- Spec-side definitions for the exact-search scoring claim.

/-- Does the filename contain the query, case-insensitively? -/
def specNameHit (f : ContentFile) (q : String) : Bool :=
  containsStr (lowerStr f.name) (lowerStr q)

/-- The number of body lines containing the query case-insensitively
(as worded by the spec: every line, with no emptiness proviso). -/
def specLineHits (f : ContentFile) (q : String) : Nat :=
  ((splitChar '\n' f.content).filter
    (fun l => containsStr (lowerStr l) (lowerStr q))).length

/-- The number of string-valued frontmatter entries whose value
contains the query case-insensitively. -/
def specFmHits (f : ContentFile) (q : String) : Nat :=
  ((f.frontmatter.getD []).filter
    (fun kv => match kv.2 with
      | .str s => containsStr (lowerStr s) (lowerStr q)
      | _ => false)).length

/-- The exact-strategy score formula as worded by the spec:
`min(0.4*(filename hit) + 0.1*(matching lines) + 0.2*(matching
frontmatter entries), 1)`. -/
def exactScoreSpec (f : ContentFile) (q : String) : ℚ :=
  min ((0.4 : ℚ) * (if specNameHit f q then 1 else 0) +
    (0.1 : ℚ) * (specLineHits f q : ℚ) + (0.2 : ℚ) * (specFmHits f q : ℚ)) 1

/-- The spec-side tag-filter membership condition: the frontmatter
`tags` field, normalized to an array even when stored as a single
scalar, contains (case-insensitively) at least one desired tag. -/
def specTagMatch (f : ContentFile) (tags : List String) : Prop :=
  ∃ t ∈ tags, ∃ v, (f.frontmatter.bind (fun fm => jGet fm "tags")) = some v ∧
    ∃ ft ∈ fileTags v, ∃ s, ft = JVal.str s ∧ lowerStr s = lowerStr t

/-- A file whose frontmatter stores `tags` as the empty-string scalar. -/
def tagsEmptyScalarFile : ContentFile :=
  ⟨"/notes/empty-tag.md", "empty-tag.md", "", some [("tags", JVal.str "")], 0, 0⟩

/-- A file tagged "tutorial" (stored lowercase). -/
def tutorialFile : ContentFile :=
  ⟨"/notes/tut.md", "tut.md", "intro", some [("tags", JVal.arr [JVal.str "tutorial"])],
    100, 5⟩

/-- 2024-01-01T00:00:00Z in milliseconds since the epoch. -/
def jan1ms : Int := 1704067200000

/-- 2024-01-15T00:00:00Z in milliseconds since the epoch. -/
def jan15ms : Int := 1705276800000

/-- 2024-01-31T00:00:00Z in milliseconds since the epoch. -/
def jan31ms : Int := 1706659200000

/-- 2024-02-01T00:00:00Z in milliseconds since the epoch. -/
def feb1ms : Int := 1706745600000

/-- A document last modified 2024-01-15. -/
def jan15File : ContentFile := ⟨"/notes/a.md", "a.md", "a", none, jan15ms, 1⟩

/-- A document last modified 2024-02-01. -/
def feb1File : ContentFile := ⟨"/notes/b.md", "b.md", "b", none, feb1ms, 1⟩

/-- A markdown-extended file body whose leading frontmatter block the
loader leaves in place. -/
def mdxDoc : String := "---\ntitle: x\n---\nbody"

/-- A file named typescript-notes.md with empty body and no
frontmatter. -/
def tsFile : ContentFile :=
  ⟨"/notes/typescript-notes.md", "typescript-notes.md", "", none, 0, 0⟩

-- Helper lemmas about setKey / lookupKey.

theorem getLast?_cons_match {α : Type} (a : α) (l : List α) :
    (a :: l).getLast? = match l.getLast? with | some x => some x | none => some a := by
  cases l with
  | nil => rfl
  | cons b t =>
    rw [List.getLast?_cons_cons]
    cases h : (b :: t).getLast? with
    | none => exact absurd (List.getLast?_eq_none_iff.mp h) (by simp)
    | some x => rfl

theorem lookupKey_setKey (m : List (String × YamlValue)) (k k' : String) (v : YamlValue) :
    lookupKey (setKey m k v) k' = if k' = k then some v else lookupKey m k' := by
  induction m with
  | nil =>
    by_cases h : k' = k
    · subst h; simp [setKey, lookupKey]
    · have hb : (k == k') = false := beq_eq_false_iff_ne.mpr (fun e => h e.symm)
      simp [setKey, lookupKey, List.find?, hb, h]
  | cons p rest ih =>
    obtain ⟨pk, pv⟩ := p
    by_cases hpk : pk = k
    · subst hpk
      by_cases h : k' = pk
      · subst h; simp [setKey, lookupKey, List.find?]
      · have hb : (pk == k') = false := beq_eq_false_iff_ne.mpr (fun e => h e.symm)
        simp [setKey, lookupKey, List.find?, hb, h]
    · by_cases h : k' = pk
      · subst h
        have hne : ¬ k' = k := hpk
        simp [setKey, hpk, lookupKey, List.find?, hne]
      · have hb : (pk == k') = false := beq_eq_false_iff_ne.mpr (fun e => h e.symm)
        have hL : lookupKey (setKey ((pk, pv) :: rest) k v) k' =
            lookupKey (setKey rest k v) k' := by
          simp [setKey, hpk, lookupKey, List.find?, hb]
        have hR : lookupKey ((pk, pv) :: rest) k' = lookupKey rest k' := by
          simp [lookupKey, List.find?, hb]
        rw [hL, ih, hR]

theorem lookup_fold_set (pairs : List (String × YamlValue))
    (acc : List (String × YamlValue)) (k : String) :
    lookupKey (pairs.foldl (fun a p => setKey a p.1 p.2) acc) k =
      (match lastVal pairs k with
       | some v => some v
       | none => lookupKey acc k) := by
  induction pairs generalizing acc with
  | nil => simp [lastVal]
  | cons p rest ih =>
    obtain ⟨pk, pv⟩ := p
    rw [List.foldl_cons, ih]
    by_cases h : pk = k
    · subst h
      have hfil : ((pk, pv) :: rest).filter (fun p => p.1 == pk) =
          (pk, pv) :: rest.filter (fun p => p.1 == pk) := by
        simp [List.filter_cons]
      cases hre : lastVal rest pk with
      | some v =>
        obtain ⟨x, hx, hxv⟩ := Option.map_eq_some'.mp hre
        have : lastVal ((pk, pv) :: rest) pk = some v := by
          simp only [lastVal, hfil, getLast?_cons_match, hx]
          simp [hxv]
        simp [this]
      | none =>
        have hg : (rest.filter (fun p => p.1 == pk)).getLast? = none := by
          simpa [lastVal] using hre
        have : lastVal ((pk, pv) :: rest) pk = some pv := by
          simp only [lastVal, hfil, getLast?_cons_match, hg]
          rfl
        simp [this, lookupKey_setKey]
    · have hb : (pk == k) = false := beq_eq_false_iff_ne.mpr h
      have hfil : lastVal ((pk, pv) :: rest) k = lastVal rest k := by
        simp [lastVal, List.filter_cons, hb]
      have hacc : lookupKey (setKey acc pk pv) k = lookupKey acc k := by
        rw [lookupKey_setKey]
        exact if_neg (fun e => h e.symm)
      rw [hacc, hfil]

/-- Folding the per-line updates equals folding `setKey` over the kept
pairs. -/
theorem parse_fold_as_pairs (lines : List String) (acc : List (String × YamlValue)) :
    lines.foldl
        (fun acc line =>
          match parseLine line with
          | none => acc
          | some (k, v) => setKey acc k v) acc =
      (lines.filterMap parseLine).foldl (fun a p => setKey a p.1 p.2) acc := by
  induction lines generalizing acc with
  | nil => rfl
  | cons l rest ih =>
    cases h : parseLine l with
    | none => simp [List.foldl_cons, List.filterMap_cons, h, ih]
    | some p => obtain ⟨pk, pv⟩ := p; simp [List.foldl_cons, List.filterMap_cons, h, ih]

/-- C3: the frontmatter parser infers each metadata value's type in the
precedence order literal true/false, literal null, `^\d+$` integer,
`^\d+\.\d+$` float, otherwise string with one layer of surrounding
matching quotes stripped; in particular `[typescript, mcp]` parses as the
literal string "[typescript, mcp]" and `2024-01-15` as the string
"2024-01-15". -/
theorem claim_C3_value_inference :
    (∀ v : String, inferValue v = specInferValue v) ∧
    parseSimpleYaml "tags: [typescript, mcp]\ndate: 2024-01-15" =
      [("tags", YamlValue.str "[typescript, mcp]"), ("date", YamlValue.str "2024-01-15")] := by
  constructor
  · intro v
    by_cases h1 : v = "true"
    · simp [inferValue, specInferValue, h1]
    · by_cases h2 : v = "false"
      · simp [inferValue, specInferValue, h1, h2]
      · simp only [inferValue, specInferValue, h1, h2, if_false, or_self, if_neg,
          not_false_eq_true, or_false, false_or]
        split_ifs <;> rfl
  · rfl

/-- C9: when the same key appears on several metadata lines the parsed
mapping binds it to the value inferred from the last such line (lookup
returns exactly the last kept binding, silently overwriting earlier
ones); e.g. for the block "a: 1\na: 2" the key a maps to the integer 2. -/
theorem claim_C9_duplicate_keys :
    (∀ (yaml : String) (k : String),
      lookupKey (parseSimpleYaml yaml) k = lastVal (keptPairs yaml) k) ∧
    lookupKey (parseSimpleYaml "a: 1\na: 2") "a" = some (YamlValue.int 2) := by
  constructor
  · intro yaml k
    unfold parseSimpleYaml keptPairs
    rw [parse_fold_as_pairs, lookup_fold_set]
    cases h : lastVal ((splitChar '\n' yaml).filterMap parseLine) k with
    | some v => rfl
    | none => simp [lookupKey]
  · rfl

-- Soundness of the frontmatter matcher.

theorem lastIdxOf_sound (c : Char) :
    ∀ (l : List Char) (i : Nat), lastIdxOf c l = some i →
      ∃ pre post, l = pre ++ c :: post ∧ pre.length = i := by
  intro l
  induction l with
  | nil => intro i h; simp [lastIdxOf] at h
  | cons x t ih =>
    intro i h
    unfold lastIdxOf at h
    cases ht : lastIdxOf c t with
    | some j =>
      rw [ht] at h
      simp only [Option.some.injEq] at h
      obtain ⟨pre, post, hp, hl⟩ := ih j ht
      refine ⟨x :: pre, post, by simp [hp], ?_⟩
      simp only [List.length_cons]
      omega
    | none =>
      rw [ht] at h
      by_cases hc : (x == c) = true
      · simp only [hc, if_true, Option.some.injEq] at h
        exact ⟨[], t, by simp [beq_iff_eq.mp hc], by simp [← h]⟩
      · simp [hc] at h

theorem take_split_at_nl (t : List Char) (i : Nat)
    (hi : i < (t.takeWhile isWS).length)
    (hnl : (t.takeWhile isWS).get? i = some '\n') :
    t.take (i + 1) = t.take i ++ ['\n'] ∧ (∀ c ∈ t.take i, isWS c = true) := by
  have hpre : t.takeWhile isWS ++ t.dropWhile isWS = t :=
    List.takeWhile_append_dropWhile isWS t
  have htake : ∀ m, m ≤ (t.takeWhile isWS).length →
      t.take m = (t.takeWhile isWS).take m := by
    intro m hm
    conv_lhs => rw [← hpre]
    rw [List.take_append_eq_append_take]
    have h0 : m - (t.takeWhile isWS).length = 0 := by omega
    simp [h0]
  constructor
  · rw [htake (i + 1) (by omega), htake i (by omega)]
    rw [List.take_succ]
    rw [List.get?_eq_getElem?] at hnl
    rw [hnl]
    rfl
  · intro ch hch
    rw [htake i (by omega)] at hch
    exact List.mem_takeWhile_imp (List.take_subset i _ hch)

theorem tryCloseAt_sound (l cl rest : List Char) (h : tryCloseAt l = some (cl, rest)) :
    l = cl ++ rest ∧
      ∃ w2, (∀ c ∈ w2, isWS c = true) ∧ cl = ['\n', '-', '-', '-'] ++ w2 ++ ['\n'] := by
  match l with
  | [] => simp [tryCloseAt] at h
  | [c1] => simp [tryCloseAt] at h
  | [c1, c2] => simp [tryCloseAt] at h
  | [c1, c2, c3] => simp [tryCloseAt] at h
  | c1 :: c2 :: c3 :: c4 :: t =>
    simp only [tryCloseAt] at h
    by_cases hg : c1 = '\n' ∧ c2 = '-' ∧ c3 = '-' ∧ c4 = '-'
    · rw [if_pos hg] at h
      obtain ⟨h1, h2, h3, h4⟩ := hg
      subst h1; subst h2; subst h3; subst h4
      cases hL : lastIdxOf '\n' (t.takeWhile isWS) with
      | none => rw [hL] at h; simp at h
      | some i =>
        rw [hL] at h
        simp only [Option.some.injEq, Prod.mk.injEq] at h
        obtain ⟨hcl, hrest⟩ := h
        obtain ⟨pre, post, hp, hlen⟩ := lastIdxOf_sound '\n' _ i hL
        have hi : i < (t.takeWhile isWS).length := by
          rw [hp]
          simp only [List.length_append, List.length_cons]
          omega
        have hnl : (t.takeWhile isWS).get? i = some '\n' := by
          rw [hp, ← hlen, List.get?_eq_getElem?]
          rw [List.getElem?_append_right (Nat.le_refl _)]
          simp
        obtain ⟨hsplit, hws⟩ := take_split_at_nl t i hi hnl
        constructor
        · rw [← hcl, ← hrest]
          simp [List.take_append_drop]
        · refine ⟨t.take i, hws, ?_⟩
          rw [← hcl, hsplit]
          simp
    · rw [if_neg hg] at h; simp at h

theorem findClose_sound :
    ∀ (l g cl rest : List Char), findClose l = some (g, cl, rest) →
      l = g ++ cl ++ rest ∧
        ∃ w2, (∀ c ∈ w2, isWS c = true) ∧ cl = ['\n', '-', '-', '-'] ++ w2 ++ ['\n'] := by
  intro l
  induction l with
  | nil => intro g cl rest h; simp [findClose] at h
  | cons c t ih =>
    intro g cl rest h
    unfold findClose at h
    cases hc : tryCloseAt (c :: t) with
    | some p =>
      obtain ⟨cl', rest'⟩ := p
      rw [hc] at h
      simp only [Option.some.injEq, Prod.mk.injEq] at h
      obtain ⟨hg, hcl, hrest⟩ := h
      subst hg; subst hcl; subst hrest
      obtain ⟨heq, hw⟩ := tryCloseAt_sound _ _ _ hc
      exact ⟨by simpa using heq, hw⟩
    | none =>
      rw [hc] at h
      cases hf : findClose t with
      | none => rw [hf] at h; simp at h
      | some q =>
        obtain ⟨g', cl', rest'⟩ := q
        rw [hf] at h
        simp only [Option.some.injEq, Prod.mk.injEq] at h
        obtain ⟨hg, hcl, hrest⟩ := h
        subst hg; subst hcl; subst hrest
        obtain ⟨heq, hw⟩ := ih g' cl' rest' hf
        exact ⟨by simp [heq], hw⟩

theorem tryIdxs_sound :
    ∀ (idxs : List Nat) (t : List Char) (i : Nat) (g cl rest : List Char),
      tryIdxs idxs t = some (i, g, cl, rest) →
      i ∈ idxs ∧ findClose (t.drop (i + 1)) = some (g, cl, rest) := by
  intro idxs
  induction idxs with
  | nil => intro t i g cl rest h; simp [tryIdxs] at h
  | cons j js ih =>
    intro t i g cl rest h
    unfold tryIdxs at h
    cases hf : findClose (t.drop (j + 1)) with
    | some q =>
      obtain ⟨g', cl', rest'⟩ := q
      rw [hf] at h
      simp only [Option.some.injEq, Prod.mk.injEq] at h
      obtain ⟨hi, hg, hcl, hrest⟩ := h
      subst hi; subst hg; subst hcl; subst hrest
      exact ⟨List.mem_cons_self _ _, hf⟩
    | none =>
      rw [hf] at h
      obtain ⟨hmem, hfc⟩ := ih t i g cl rest h
      exact ⟨List.mem_cons_of_mem _ hmem, hfc⟩

theorem mem_nlIdxsDesc (r : List Char) (i : Nat) (h : i ∈ nlIdxsDesc r) :
    i < r.length ∧ r.get? i = some '\n' := by
  unfold nlIdxsDesc at h
  rw [List.mem_reverse, List.mem_filter] at h
  obtain ⟨hr, hnl⟩ := h
  exact ⟨List.mem_range.mp hr, by simpa using hnl⟩

theorem matchFM_sound (s : String) (w g cl rest : List Char)
    (h : matchFM s = some (w, g, cl, rest)) :
    s.data = ['-', '-', '-'] ++ w ++ g ++ cl ++ rest ∧
      (∃ w0, (∀ c ∈ w0, isWS c = true) ∧ w = w0 ++ ['\n']) ∧
      (∃ w2, (∀ c ∈ w2, isWS c = true) ∧ cl = ['\n', '-', '-', '-'] ++ w2 ++ ['\n']) := by
  match hs : s.data with
  | [] => simp [matchFM, hs] at h
  | [c1] => simp [matchFM, hs] at h
  | [c1, c2] => simp [matchFM, hs] at h
  | c1 :: c2 :: c3 :: t =>
    simp only [matchFM, hs] at h
    by_cases hg3 : c1 = '-' ∧ c2 = '-' ∧ c3 = '-'
    · rw [if_pos hg3] at h
      obtain ⟨h1, h2, h3⟩ := hg3
      subst h1; subst h2; subst h3
      cases hT : tryIdxs (nlIdxsDesc (t.takeWhile isWS)) t with
      | none => rw [hT] at h; simp at h
      | some q =>
        obtain ⟨i, g', cl', rest'⟩ := q
        rw [hT] at h
        simp only [Option.some.injEq, Prod.mk.injEq] at h
        obtain ⟨hw, hgg, hcl, hrest⟩ := h
        subst hw; subst hgg; subst hcl; subst hrest
        obtain ⟨hmem, hfc⟩ := tryIdxs_sound _ t i _ _ _ hT
        obtain ⟨hi, hnl⟩ := mem_nlIdxsDesc _ i hmem
        obtain ⟨hsplit, hws⟩ := take_split_at_nl t i hi hnl
        obtain ⟨heq, hw2⟩ := findClose_sound _ _ _ _ hfc
        have ht : t = t.take (i + 1) ++ (g' ++ cl' ++ rest') := by
          conv_lhs => rw [← List.take_append_drop (i + 1) t]
          rw [heq]
        refine ⟨?_, ⟨t.take i, hws, hsplit⟩, hw2⟩
        conv_lhs => rw [ht]
        simp
    · rw [if_neg hg3] at h; simp at h

theorem matchFM_block (s : String) (w g cl rest : List Char)
    (h : matchFM s = some (w, g, cl, rest)) : HasLeadingFMBlock s := by
  obtain ⟨hdata, ⟨w0, hw0, hw⟩, ⟨w2, hw2, hcl⟩⟩ := matchFM_sound s w g cl rest h
  refine ⟨['-', '-', '-'] ++ w0 ++ ['\n'] ++ g ++ ['\n', '-', '-', '-'] ++ w2 ++ ['\n'],
    rest, ?_, w0, g, w2, hw0, hw2, rfl⟩
  rw [hdata, hw, hcl]
  simp

/-- C4: on any input that does not begin with a well-formed frontmatter
block (no leading delimiter, or an unclosed one), frontmatter extraction
succeeds structurally and returns the empty mapping together with the
original text unchanged. -/
theorem claim_C4_no_block_is_identity (s : String) (h : ¬ HasLeadingFMBlock s) :
    extractFrontmatter s = ([], s) := by
  cases hm : matchFM s with
  | none => simp [extractFrontmatter, hm]
  | some q =>
    obtain ⟨w, g, cl, rest⟩ := q
    exact absurd (matchFM_block s w g cl rest hm) h

/-- Witness for C4 at the concrete input "---\ntitle: x\nbody", whose
frontmatter delimiter is never closed: extraction returns the empty
mapping and the unchanged text. -/
theorem claim_C4_no_block_is_identity_witness :
    extractFrontmatter "---\ntitle: x\nbody" = ([], "---\ntitle: x\nbody") := by
  apply claim_C4_no_block_is_identity
  intro hblock
  obtain ⟨block, rest, heq, w0, g, w2, _, _, hb⟩ := hblock
  have hcount : ("---\ntitle: x\nbody".data.count '-') = 3 := by decide
  rw [heq, List.count_append, hb] at hcount
  simp only [List.count_append, List.count_cons, List.count_nil, beq_self_eq_true,
    if_true, show (('\n' : Char) == '-') = false by decide, if_false] at hcount
  omega

-- Heading extractor lemmas.

theorem splitLinesAux_no_term (l : List Char) (h : ∀ c ∈ l, isLineTerm c = false) :
    splitLinesAux l = [l] := by
  induction l with
  | nil => rfl
  | cons c t ih =>
    have hc : isLineTerm c = false := h c (List.mem_cons_self c t)
    have ht := ih (fun c' hc' => h c' (List.mem_cons_of_mem _ hc'))
    simp [splitLinesAux, hc, ht]

theorem takeWhile_append_all (p : Char → Bool) (l₁ l₂ : List Char)
    (h : ∀ c ∈ l₁, p c = true) :
    (l₁ ++ l₂).takeWhile p = l₁ ++ l₂.takeWhile p := by
  induction l₁ with
  | nil => simp
  | cons x xs ih =>
    have hx : p x = true := h x (List.mem_cons_self x xs)
    simp only [List.cons_append, List.takeWhile_cons, hx, if_true]
    rw [ih (fun c hc => h c (List.mem_cons_of_mem _ hc))]

theorem takeWhile_head_false (p : Char → Bool) (x : Char) (xs : List Char)
    (h : p x = false) : (x :: xs).takeWhile p = [] := by
  simp [List.takeWhile_cons, h]

theorem ws_not_hash (c : Char) (h : isWS c = true) : (c == '#') = false := by
  cases hb : c == '#' with
  | false => rfl
  | true =>
    rw [beq_iff_eq.mp hb] at h
    exact absurd h (by decide)

theorem takeWhile_length_lt (p : Char → Bool) (t : List Char)
    (h : ∃ c ∈ t, p c = false) : (t.takeWhile p).length < t.length := by
  induction t with
  | nil => simp at h
  | cons x xs ih =>
    by_cases hx : p x = true
    · obtain ⟨c, hc, hpc⟩ := h
      rcases List.mem_cons.mp hc with rfl | hmem
      · rw [hx] at hpc; simp at hpc
      · simp only [List.takeWhile_cons, hx, if_true, List.length_cons]
        exact Nat.succ_lt_succ (ih ⟨c, hmem, hpc⟩)
    · have hx' : p x = false := by simpa using hx
      simp [List.takeWhile_cons, hx']

theorem drop_takeWhile_length (p : Char → Bool) (t : List Char) :
    t.drop ((t.takeWhile p).length) = t.dropWhile p := by
  have hsplit : t.drop ((t.takeWhile p).length) =
      ((t.takeWhile p) ++ (t.dropWhile p)).drop ((t.takeWhile p).length) := by
    rw [List.takeWhile_append_dropWhile]
  rw [hsplit, List.drop_left]

theorem jsTrimL_dropWhile (l : List Char) : jsTrimL (l.dropWhile isWS) = jsTrimL l := by
  unfold jsTrimL
  rw [List.dropWhile_idempotent]

theorem lineHeading_full (k : Nat) (w t : List Char)
    (hk1 : 1 ≤ k) (hk6 : k ≤ 6) (hw : w ≠ [])
    (hwws : ∀ c ∈ w, isWS c = true)
    (htws : ∃ c ∈ t, isWS c = false) :
    lineHeading (List.replicate k '#' ++ w ++ t) =
      some ⟨k, String.mk (jsTrimL t), slugOf (String.mk (jsTrimL t))⟩ := by
  obtain ⟨wc, w', rfl⟩ : ∃ wc w', w = wc :: w' := by
    cases w with
    | nil => exact absurd rfl hw
    | cons a b => exact ⟨a, b, rfl⟩
  have htne : t ≠ [] := by
    obtain ⟨c, hc, _⟩ := htws
    intro hnil; rw [hnil] at hc; simp at hc
  have hwc : isWS wc = true := hwws wc (List.mem_cons_self _ _)
  -- the leading hash run
  have hktake : ((List.replicate k '#' ++ (wc :: w') ++ t).takeWhile (· == '#')) =
      List.replicate k '#' := by
    rw [List.append_assoc]
    rw [takeWhile_append_all _ _ _ (by intro c hc; simp [List.eq_of_mem_replicate hc])]
    rw [List.cons_append,
      takeWhile_head_false (fun x => x == '#') wc (w' ++ t) (ws_not_hash wc hwc)]
    simp
  have hklen : ((List.replicate k '#' ++ (wc :: w') ++ t).takeWhile (· == '#')).length = k := by
    rw [hktake]; simp
  -- the rest after the hashes
  have hdrop : (List.replicate k '#' ++ (wc :: w') ++ t).drop k = wc :: (w' ++ t) := by
    rw [List.append_assoc]
    have h0 := List.drop_left (List.replicate k '#') (wc :: w' ++ t)
    rw [List.length_replicate] at h0
    rw [h0]
    simp
  -- shape of the rest: at least two characters
  obtain ⟨d, t'', hwt⟩ : ∃ d t'', w' ++ t = d :: t'' := by
    cases hcase : w' ++ t with
    | nil =>
      obtain ⟨_, h2⟩ := List.append_eq_nil.mp hcase
      exact absurd h2 htne
    | cons d t'' => exact ⟨d, t'', rfl⟩
  -- whitespace run of the rest
  have htw : ((wc :: (w' ++ t)).takeWhile isWS) = (wc :: w') ++ t.takeWhile isWS := by
    rw [← List.cons_append]
    exact takeWhile_append_all _ _ _ (fun c hc => hwws c hc)
  have ha : (t.takeWhile isWS).length < t.length := takeWhile_length_lt _ _ htws
  have hmin : min (((wc :: (w' ++ t)).takeWhile isWS).length)
      ((wc :: (w' ++ t)).length - 1) = (wc :: w').length + (t.takeWhile isWS).length := by
    rw [htw]
    simp only [List.length_append, List.length_cons]
    omega
  have hdropj : (wc :: (w' ++ t)).drop ((wc :: w').length + (t.takeWhile isWS).length) =
      t.drop ((t.takeWhile isWS).length) := by
    rw [← List.cons_append]
    exact List.drop_append _
  -- assemble
  unfold lineHeading
  rw [hklen, if_pos ⟨hk1, hk6⟩, hdrop, hwt]
  simp only [headingRest, hwc, if_true, ← hwt]
  rw [hmin, hdropj, drop_takeWhile_length, jsTrimL_dropWhile]

/-- C8: on a line of 1-6 leading hashes, whitespace, and text, the
extractor emits exactly the record (level = hash count, text = trimmed
remainder, id = slug of the trimmed remainder); and on the concrete
input "# Title\n## Sub Heading" it yields levels 1 and 2 with ids
"title" and "sub-heading". -/
theorem claim_C8_heading_extraction :
    (∀ (k : Nat) (w t : List Char),
        1 ≤ k → k ≤ 6 → w ≠ [] →
        (∀ c ∈ w, isWS c = true ∧ isLineTerm c = false) →
        (∀ c ∈ t, isLineTerm c = false) →
        (∃ c ∈ t, isWS c = false) →
        extractHeadings (String.mk (List.replicate k '#' ++ w ++ t)) =
          [⟨k, String.mk (jsTrimL t), slugOf (String.mk (jsTrimL t))⟩]) ∧
    extractHeadings "# Title\n## Sub Heading" =
      [⟨1, "Title", "title"⟩, ⟨2, "Sub Heading", "sub-heading"⟩] := by
  constructor
  · intro k w t hk1 hk6 hw hwprop htterm htws
    have hnoterm : ∀ c ∈ List.replicate k '#' ++ w ++ t, isLineTerm c = false := by
      intro c hc
      rcases List.mem_append.mp hc with hc1 | hct
      · rcases List.mem_append.mp hc1 with hch | hcw
        · rw [List.eq_of_mem_replicate hch]; decide
        · exact (hwprop c hcw).2
      · exact htterm c hct
    show (splitLines _).filterMap lineHeading = _
    unfold splitLines
    rw [show (String.mk (List.replicate k '#' ++ w ++ t)).data =
        List.replicate k '#' ++ w ++ t from rfl]
    rw [splitLinesAux_no_term _ hnoterm]
    rw [List.filterMap_cons]
    rw [lineHeading_full k w t hk1 hk6 hw (fun c hc => (hwprop c hc).1) htws]
    rfl
  · rfl

/-- Witness for C8 at k = 2, w = one space, t = "Sub  Heading!". -/
theorem claim_C8_heading_extraction_witness :
    extractHeadings (String.mk (List.replicate 2 '#' ++ [' '] ++ "Sub  Heading!".data)) =
      [⟨2, String.mk (jsTrimL "Sub  Heading!".data),
        slugOf (String.mk (jsTrimL "Sub  Heading!".data))⟩] :=
  claim_C8_heading_extraction.1 2 [' '] "Sub  Heading!".data (by decide) (by decide)
    (by decide) (by decide) (by decide) (by decide)

-- Slug character-set lemmas.

theorem toNat_ofNat_small (n : Nat) (h : n < 55296) : (Char.ofNat n).toNat = n := by
  have hv : n.isValidChar := Or.inl h
  simp [Char.ofNat, hv, Char.ofNatAux, Char.toNat, UInt32.toNat, BitVec.toNat_ofNatLt]

theorem jsToLower_not_upper (c : Char) : ¬ ('A' ≤ jsToLower c ∧ jsToLower c ≤ 'Z') := by
  unfold jsToLower
  by_cases h : 'A' ≤ c ∧ c ≤ 'Z'
  · rw [if_pos h]
    intro hcon
    have g1 : 65 ≤ c.toNat := h.1
    have g2 : c.toNat ≤ 90 := h.2
    have hofn : (Char.ofNat (c.toNat + 32)).toNat = c.toNat + 32 :=
      toNat_ofNat_small _ (by omega)
    have u1 : 65 ≤ (Char.ofNat (c.toNat + 32)).toNat := hcon.1
    have u2 : (Char.ofNat (c.toNat + 32)).toNat ≤ 90 := hcon.2
    omega
  · rw [if_neg h]; exact h

theorem collapseWSAux_chars (flag : Bool) (l : List Char) (c : Char)
    (h : c ∈ collapseWSAux flag l) : c = '-' ∨ (c ∈ l ∧ isWS c = false) := by
  induction l generalizing flag with
  | nil => simp [collapseWSAux] at h
  | cons x t ih =>
    unfold collapseWSAux at h
    by_cases hx : isWS x = true
    · rw [if_pos hx] at h
      cases flag with
      | true =>
        rw [if_pos rfl] at h
        exact (ih true h).imp id (fun hp => ⟨List.mem_cons_of_mem _ hp.1, hp.2⟩)
      | false =>
        rw [if_neg (by simp)] at h
        rcases List.mem_cons.mp h with rfl | hm
        · exact Or.inl rfl
        · exact (ih true hm).imp id (fun hp => ⟨List.mem_cons_of_mem _ hp.1, hp.2⟩)
    · have hx' : isWS x = false := by simpa using hx
      rw [if_neg (by simp [hx'])] at h
      rcases List.mem_cons.mp h with rfl | hm
      · exact Or.inr ⟨List.mem_cons_self _ _, hx'⟩
      · exact (ih false hm).imp id (fun hp => ⟨List.mem_cons_of_mem _ hp.1, hp.2⟩)

theorem lineHeading_id_eq (l : List Char) (hd : Heading) (h : lineHeading l = some hd) :
    hd.id = slugOf hd.text := by
  obtain ⟨lv, tx, idv⟩ := hd
  simp only [lineHeading] at h
  split_ifs at h with hk
  unfold headingRest at h
  split at h
  · split_ifs at h with hws
    simp only [Option.some.injEq, Heading.mk.injEq] at h
    obtain ⟨h1, h2, h3⟩ := h
    show idv = slugOf tx
    rw [← h2, ← h3]
  · exact absurd h (by simp)

/-- C10: every heading id emitted by the extractor, on any input,
consists solely of lowercase ASCII letters, digits, underscores and
hyphens - in particular it contains no whitespace and no uppercase
letters, so it is safe as a URL anchor in the generated table of
contents. -/
theorem claim_C10_slug_charset (content : String) (hd : Heading)
    (hmem : hd ∈ extractHeadings content) :
    ∀ c ∈ hd.id.data, ('a' ≤ c ∧ c ≤ 'z') ∨ ('0' ≤ c ∧ c ≤ '9') ∨ c = '_' ∨ c = '-' := by
  intro c hc
  obtain ⟨line, _, hsome⟩ := List.mem_filterMap.mp hmem
  rw [lineHeading_id_eq line hd hsome] at hc
  have hc' : c ∈ collapseWSAux false
      ((hd.text.data.map jsToLower).filter (fun c => isWordCh c || isWS c || c == '-')) := hc
  rcases collapseWSAux_chars _ _ _ hc' with hdash | ⟨hmemf, hws⟩
  · right; right; right; exact hdash
  · rw [List.mem_filter] at hmemf
    obtain ⟨hmap, hp⟩ := hmemf
    simp only [hws, Bool.or_false, Bool.or_eq_true, beq_iff_eq] at hp
    rcases hp with hw | hdash
    · obtain ⟨c0, _, hc0⟩ := List.mem_map.mp hmap
      unfold isWordCh at hw
      simp only [Bool.or_eq_true, Bool.and_eq_true, decide_eq_true_eq, beq_iff_eq] at hw
      rcases hw with ((hlz | hAZ) | hdig) | hund
      · left; exact hlz
      · exact absurd (by rw [hc0]; exact hAZ) (jsToLower_not_upper c0)
      · right; left; exact hdig
      · right; right; left; exact hund
    · right; right; right; exact hdash

/-- Witness for C10: the heading extracted from "# Hello World" has id
hello-world, and its character h is in the allowed character set. -/
theorem claim_C10_slug_charset_witness :
    (⟨1, "Hello World", "hello-world"⟩ : Heading) ∈ extractHeadings "# Hello World" ∧
      (('a' ≤ 'h' ∧ 'h' ≤ 'z') ∨ ('0' ≤ 'h' ∧ 'h' ≤ '9') ∨ 'h' = '_' ∨ 'h' = '-') :=
  ⟨by decide,
   claim_C10_slug_charset "# Hello World" ⟨1, "Hello World", "hello-world"⟩ (by decide)
     'h' (by decide)⟩

-- Stable descending sort lemmas.

theorem mem_insDescBy {α β : Type} [LinearOrder β] (key : α → β) (x a : α) (l : List α) :
    a ∈ insDescBy key x l ↔ a = x ∨ a ∈ l := by
  induction l with
  | nil => simp [insDescBy]
  | cons y ys ih =>
    unfold insDescBy
    by_cases h : key x < key y
    · rw [if_pos h]
      simp only [List.mem_cons, ih]
      tauto
    · rw [if_neg h]
      simp only [List.mem_cons]

theorem insDescBy_perm {α β : Type} [LinearOrder β] (key : α → β) (x : α) (l : List α) :
    (insDescBy key x l).Perm (x :: l) := by
  induction l with
  | nil => exact List.Perm.refl _
  | cons y ys ih =>
    unfold insDescBy
    by_cases h : key x < key y
    · rw [if_pos h]
      exact (ih.cons y).trans (List.Perm.swap x y ys)
    · rw [if_neg h]

theorem sortDescBy_perm {α β : Type} [LinearOrder β] (key : α → β) (l : List α) :
    (sortDescBy key l).Perm l := by
  induction l with
  | nil => exact List.Perm.refl _
  | cons x xs ih =>
    show (insDescBy key x (sortDescBy key xs)).Perm (x :: xs)
    exact (insDescBy_perm key x _).trans (ih.cons x)

theorem mem_sortDescBy {α β : Type} [LinearOrder β] (key : α → β) (a : α) (l : List α) :
    a ∈ sortDescBy key l ↔ a ∈ l := (sortDescBy_perm key l).mem_iff

theorem insDescBy_pairwise {α β : Type} [LinearOrder β] (key : α → β) (x : α) (l : List α)
    (h : l.Pairwise (fun a b => key b ≤ key a)) :
    (insDescBy key x l).Pairwise (fun a b => key b ≤ key a) := by
  induction l with
  | nil => simp [insDescBy]
  | cons y ys ih =>
    rw [List.pairwise_cons] at h
    obtain ⟨hy, hys⟩ := h
    unfold insDescBy
    by_cases hlt : key x < key y
    · rw [if_pos hlt, List.pairwise_cons]
      refine ⟨?_, ih hys⟩
      intro z hz
      rcases (mem_insDescBy key x z ys).mp hz with rfl | hmem
      · exact le_of_lt hlt
      · exact hy z hmem
    · rw [if_neg hlt, List.pairwise_cons]
      refine ⟨?_, List.pairwise_cons.mpr ⟨hy, hys⟩⟩
      intro z hz
      rcases List.mem_cons.mp hz with rfl | hmem
      · exact le_of_not_lt hlt
      · exact le_trans (hy z hmem) (le_of_not_lt hlt)

theorem sortDescBy_pairwise {α β : Type} [LinearOrder β] (key : α → β) (l : List α) :
    (sortDescBy key l).Pairwise (fun a b => key b ≤ key a) := by
  induction l with
  | nil => simp [sortDescBy]
  | cons x xs ih =>
    show (insDescBy key x (sortDescBy key xs)).Pairwise _
    exact insDescBy_pairwise key x _ ih

theorem filter_insDescBy {α β : Type} [LinearOrder β] (key : α → β) (x : α) (l : List α)
    (s : β) :
    (insDescBy key x l).filter (fun a => decide (key a = s)) =
      if key x = s then x :: l.filter (fun a => decide (key a = s))
      else l.filter (fun a => decide (key a = s)) := by
  induction l with
  | nil =>
    by_cases h : key x = s <;> simp [insDescBy, List.filter_cons, h]
  | cons y ys ih =>
    unfold insDescBy
    by_cases hlt : key x < key y
    · rw [if_pos hlt]
      by_cases hxs : key x = s
      · have hys : ¬ (key y = s) := by
          intro he
          rw [hxs, ← he] at hlt
          exact lt_irrefl _ hlt
        simp [List.filter_cons, hys, hxs, ih]
      · simp only [List.filter_cons, ih, if_neg hxs]
    · rw [if_neg hlt]
      by_cases hxs : key x = s <;> simp [List.filter_cons, hxs]

theorem sortDescBy_filter {α β : Type} [LinearOrder β] (key : α → β) (l : List α) (s : β) :
    (sortDescBy key l).filter (fun a => decide (key a = s)) =
      l.filter (fun a => decide (key a = s)) := by
  induction l with
  | nil => rfl
  | cons x xs ih =>
    show ((insDescBy key x (sortDescBy key xs)).filter _) = _
    rw [filter_insDescBy]
    by_cases h : key x = s
    · rw [if_pos h, ih, List.filter_cons]
      simp [h]
    · rw [if_neg h, ih, List.filter_cons]
      simp [h]

-- Exact-search lemmas.

theorem string_data_nil (q : String) (h : q.data = []) : q = "" := by
  cases q
  cases h
  rfl

theorem containsStr_hay_empty (q : String) (hq : q ≠ "") : containsStr "" q = false := by
  have h0 : containsStr "" q = q.data.isPrefixOf [] := rfl
  rw [h0]
  cases hd : q.data with
  | nil => exact absurd (string_data_nil q hd) hq
  | cons c cs => rfl

theorem lowerStr_ne_empty (q : String) (hq : q ≠ "") : lowerStr q ≠ "" := by
  intro h
  apply hq
  apply string_data_nil
  have h2 : (lowerStr q).data = q.data.map jsToLower := rfl
  rw [h] at h2
  exact List.map_eq_nil_iff.mp h2.symm

theorem code_line_pred_eq (q : String) (hq : q ≠ "") (p : Nat × String) :
    (!(p.2 == "") && containsStr (lowerStr p.2) (lowerStr q)) =
      containsStr (lowerStr p.2) (lowerStr q) := by
  by_cases he : p.2 = ""
  · rw [he]
    have h0 : containsStr (lowerStr "") (lowerStr q) = false :=
      containsStr_hay_empty (lowerStr q) (lowerStr_ne_empty q hq)
    rw [h0]
    simp
  · have hb : (p.2 == "") = false := beq_eq_false_iff_ne.mpr he
    rw [hb]
    simp

theorem enumFrom_filter_len (P : String → Bool) (l : List String) :
    ∀ n, ((List.enumFrom n l).filter (fun p => P p.2)).length = (l.filter P).length := by
  induction l with
  | nil => intro n; rfl
  | cons x xs ih =>
    intro n
    rw [List.enumFrom_cons, List.filter_cons, List.filter_cons]
    by_cases hP : P x = true
    · simp only [hP, if_pos, List.length_cons, ih]
    · simp [hP, ih]

theorem lineHits_len_spec (q : String) (hq : q ≠ "") (f : ContentFile) :
    ((splitChar '\n' f.content).enum.filter
        (fun p => !(p.2 == "") && containsStr (lowerStr p.2) (lowerStr q))).length =
      specLineHits f q := by
  unfold specLineHits
  have hcong : ((splitChar '\n' f.content).enum.filter
      (fun p => !(p.2 == "") && containsStr (lowerStr p.2) (lowerStr q))) =
      ((splitChar '\n' f.content).enum.filter
        (fun p => containsStr (lowerStr p.2) (lowerStr q))) := by
    apply List.filter_congr
    intro p _
    exact code_line_pred_eq q hq p
  rw [hcong]
  exact enumFrom_filter_len (fun l => containsStr (lowerStr l) (lowerStr q))
    (splitChar '\n' f.content) 0

theorem opt_if_some {α : Type} (C : Bool) (X : α) (r : α)
    (h : (if C = true then none else some X) = some r) : X = r := by
  by_cases hc : C = true
  · rw [if_pos hc] at h
    exact Option.noConfusion h
  · rw [if_neg hc] at h
    exact Option.some.inj h

theorem exactScoreCode_spec (q : String) (hq : q ≠ "") (f : ContentFile) :
    exactScoreCode (lowerStr q) f =
      (0.4 : ℚ) * (if specNameHit f q then 1 else 0) +
        (0.1 : ℚ) * (specLineHits f q : ℚ) + (0.2 : ℚ) * (specFmHits f q : ℚ) := by
  unfold exactScoreCode specNameHit
  rw [lineHits_len_spec q hq f]
  unfold specFmHits
  by_cases hb : containsStr (lowerStr f.name) (lowerStr q) = true
  · rw [if_pos hb, if_pos hb]
    ring
  · rw [if_neg hb, if_neg hb]
    ring

theorem exactEntry_some_spec (q : String) (hq : q ≠ "") (f : ContentFile) (r : SearchResult)
    (h : exactEntry (lowerStr q) true f = some r) :
    r.file = f ∧ r.score = exactScoreSpec f q := by
  simp only [exactEntry] at h
  have h2 := opt_if_some _ _ _ h
  obtain ⟨rf, rs, rm⟩ := r
  simp only [SearchResult.mk.injEq] at h2
  obtain ⟨h2a, h2b, h2c⟩ := h2
  constructor
  · show rf = f
    rw [← h2a]
    simp
  · show rs = exactScoreSpec f q
    rw [← h2b]
    unfold exactScoreSpec
    rw [exactScoreCode_spec q hq f]

theorem exactEntry_none_of_nomatch (q : String) (hq : q ≠ "") (inc : Bool) (f : ContentFile)
    (hn : specNameHit f q = false) (hl : specLineHits f q = 0) (hf : specFmHits f q = 0) :
    exactEntry (lowerStr q) inc f = none := by
  have hlh : ((splitChar '\n' f.content).enum.filter
      (fun p => !(p.2 == "") && containsStr (lowerStr p.2) (lowerStr q))) = [] := by
    apply List.eq_nil_of_length_eq_zero
    rw [lineHits_len_spec q hq f]
    exact hl
  have hfh : ((f.frontmatter.getD []).filter
      (fun kv => match kv.2 with
        | .str s => containsStr (lowerStr s) (lowerStr q)
        | _ => false)) = [] := by
    apply List.eq_nil_of_length_eq_zero
    exact hf
  have hnb : containsStr (lowerStr f.name) (lowerStr q) = false := hn
  simp only [exactEntry, hnb, Bool.false_eq_true, if_false, hlh, hfh, List.map_nil,
    List.append_nil, List.nil_append, List.isEmpty_nil, if_true]

theorem exactScoreCode_nonneg (qL : String) (f : ContentFile) :
    0 ≤ exactScoreCode qL f := by
  unfold exactScoreCode
  apply add_nonneg
  apply add_nonneg
  · split_ifs <;> norm_num
  · exact mul_nonneg (Nat.cast_nonneg _) (by norm_num)
  · exact mul_nonneg (Nat.cast_nonneg _) (by norm_num)

theorem exactEntry_bounds (qL : String) (inc : Bool) (f : ContentFile) (r : SearchResult)
    (h : exactEntry qL inc f = some r) : 0 ≤ r.score ∧ r.score ≤ 1 := by
  simp only [exactEntry] at h
  have h2 := opt_if_some _ _ _ h
  obtain ⟨rf, rs, rm⟩ := r
  simp only [SearchResult.mk.injEq] at h2
  obtain ⟨h2a, h2b, h2c⟩ := h2
  show 0 ≤ rs ∧ rs ≤ 1
  rw [← h2b]
  exact ⟨le_min (exactScoreCode_nonneg qL f) (by norm_num), min_le_right _ _⟩

theorem mem_performExact (files : List ContentFile) (q : String) (maxR : Nat) (inc : Bool)
    (r : SearchResult) (h : r ∈ performExactSearch files q maxR inc) :
    ∃ f ∈ files, exactEntry (lowerStr q) inc f = some r := by
  unfold performExactSearch at h
  have h1 := List.mem_of_mem_take h
  have h2 : r ∈ exactResults files q inc := (mem_sortDescBy _ _ _).mp h1
  exact List.mem_filterMap.mp h2

/-- C1: with includeContent on (the schema default), every exact-search
result's score equals `min(0.4*(filename hit) + 0.1*(matching lines) +
0.2*(matching string frontmatter entries), 1)`; a document matching
only in its filename scores exactly 0.4; and a document with zero
matches never appears in the result list.  (The query is non-empty, as
guaranteed by the search schema's `min(1)` validation.) -/
theorem claim_C1_exact_scoring (files : List ContentFile) (q : String) (maxR : Nat)
    (hq : q ≠ "") :
    (∀ r ∈ performExactSearch files q maxR true, r.score = exactScoreSpec r.file q) ∧
    (∀ r ∈ performExactSearch files q maxR true,
      specNameHit r.file q = true → specLineHits r.file q = 0 → specFmHits r.file q = 0 →
      r.score = 0.4) ∧
    (∀ f ∈ files,
      specNameHit f q = false → specLineHits f q = 0 → specFmHits f q = 0 →
      ∀ r ∈ performExactSearch files q maxR true, r.file ≠ f) := by
  refine ⟨?_, ?_, ?_⟩
  · intro r hr
    obtain ⟨f, _, he⟩ := mem_performExact files q maxR true r hr
    obtain ⟨hfile, hscore⟩ := exactEntry_some_spec q hq f r he
    rw [hscore, hfile]
  · intro r hr hn hl hf
    obtain ⟨f, _, he⟩ := mem_performExact files q maxR true r hr
    obtain ⟨hfile, hscore⟩ := exactEntry_some_spec q hq f r he
    rw [hscore, ← hfile]
    unfold exactScoreSpec
    rw [hn, hl, hf]
    norm_num
  · intro f _ hn hl hf r hr heq
    obtain ⟨f', _, he⟩ := mem_performExact files q maxR true r hr
    obtain ⟨hfile, _⟩ := exactEntry_some_spec q hq f' r he
    rw [heq] at hfile
    rw [← hfile] at he
    rw [exactEntry_none_of_nomatch q hq true f hn hl hf] at he
    exact Option.noConfusion he

/-- Witness for C1 on a single file named typescript-notes.md with
empty body and no frontmatter, queried with "typescript". -/
theorem claim_C1_exact_scoring_witness :
    (∀ r ∈ performExactSearch [tsFile] "typescript" 10 true,
      r.score = exactScoreSpec r.file "typescript") ∧
    (∀ r ∈ performExactSearch [tsFile] "typescript" 10 true,
      specNameHit r.file "typescript" = true → specLineHits r.file "typescript" = 0 →
      specFmHits r.file "typescript" = 0 → r.score = 0.4) :=
  ⟨(claim_C1_exact_scoring [tsFile] "typescript" 10 (by decide)).1,
   (claim_C1_exact_scoring [tsFile] "typescript" 10 (by decide)).2.1⟩

/-- C2: under both strategies every returned score lies in [0,1] and
the result list is sorted descending by score; the exact strategy's
sort is stable (the sorted list restricted to any fixed score equals
the scan-order list so restricted) and the exact result list is
truncated to at most maxResults entries.  The external fuzzy matcher's
documented contract (raw scores in [0,1], results sorted best-first,
i.e. ascending raw score) appears as the two hypotheses. -/
theorem claim_C2_scores_sorted (files : List ContentFile) (q : String) (maxR : Nat)
    (inc : Bool) (frs : List FuseResult)
    (hfs : ∀ fr ∈ frs, 0 ≤ fr.score ∧ fr.score ≤ 1)
    (hsorted : frs.Pairwise (fun a b => a.score ≤ b.score)) :
    (∀ r ∈ performExactSearch files q maxR inc, 0 ≤ r.score ∧ r.score ≤ 1) ∧
    (performExactSearch files q maxR inc).Pairwise (fun a b => b.score ≤ a.score) ∧
    (performExactSearch files q maxR inc).length ≤ maxR ∧
    (∀ s : ℚ,
      (sortDescBy (fun r => r.score) (exactResults files q inc)).filter
          (fun r => decide (r.score = s)) =
        (exactResults files q inc).filter (fun r => decide (r.score = s))) ∧
    (∀ r ∈ performFuzzySearch frs inc, 0 ≤ r.score ∧ r.score ≤ 1) ∧
    (performFuzzySearch frs inc).Pairwise (fun a b => b.score ≤ a.score) := by
  refine ⟨?_, ?_, ?_, ?_, ?_, ?_⟩
  · intro r hr
    obtain ⟨f, _, he⟩ := mem_performExact files q maxR inc r hr
    exact exactEntry_bounds (lowerStr q) inc f r he
  · exact List.Pairwise.sublist (List.take_sublist _ _)
      (sortDescBy_pairwise (fun r => r.score) (exactResults files q inc))
  · exact List.length_take_le _ _
  · intro s
    exact sortDescBy_filter (fun r => r.score) (exactResults files q inc) s
  · intro r hr
    obtain ⟨fr, hfr, hmap⟩ := List.mem_map.mp hr
    obtain ⟨h0, h1⟩ := hfs fr hfr
    rw [← hmap]
    constructor
    · show (0 : ℚ) ≤ 1 - fr.score
      linarith
    · show (1 : ℚ) - fr.score ≤ 1
      linarith
  · unfold performFuzzySearch
    rw [List.pairwise_map]
    apply List.Pairwise.imp _ hsorted
    intro a b hab
    show (1 : ℚ) - b.score ≤ 1 - a.score
    linarith

/-- Witness for C2 with one file, one-element and two-element concrete
fuse outputs with scores 0 and 1. -/
theorem claim_C2_scores_sorted_witness :
    (∀ r ∈ performExactSearch [tsFile] "notes" 3 true, 0 ≤ r.score ∧ r.score ≤ 1) ∧
    (performExactSearch [tsFile] "notes" 3 true).Pairwise (fun a b => b.score ≤ a.score) ∧
    (performExactSearch [tsFile] "notes" 3 true).length ≤ 3 ∧
    (∀ s : ℚ,
      (sortDescBy (fun r => r.score) (exactResults [tsFile] "notes" true)).filter
          (fun r => decide (r.score = s)) =
        (exactResults [tsFile] "notes" true).filter (fun r => decide (r.score = s))) ∧
    (∀ r ∈ performFuzzySearch [⟨tsFile, 0, []⟩, ⟨tsFile, 1, []⟩] true,
      0 ≤ r.score ∧ r.score ≤ 1) ∧
    (performFuzzySearch [⟨tsFile, 0, []⟩, ⟨tsFile, 1, []⟩] true).Pairwise
      (fun a b => b.score ≤ a.score) :=
  claim_C2_scores_sorted [tsFile] "notes" 3 true [⟨tsFile, 0, []⟩, ⟨tsFile, 1, []⟩]
    (by
      intro fr hfr
      rcases List.mem_cons.mp hfr with rfl | hfr2
      · exact ⟨le_refl 0, zero_le_one⟩
      · rcases List.mem_cons.mp hfr2 with rfl | hfr3
        · exact ⟨zero_le_one, le_refl 1⟩
        · simp at hfr3)
    (by simp)

-- Tag and date filter lemmas.

theorem lowerStr_empty_iff (s : String) : lowerStr s = "" ↔ s = "" := by
  constructor
  · intro h
    by_contra hne
    exact lowerStr_ne_empty s hne h
  · intro h
    rw [h]
    rfl

theorem hasMatchingTag_iff (f : ContentFile) (tags : List String)
    (htne : ∀ t ∈ tags, t ≠ "") :
    hasMatchingTag f tags = true ↔ specTagMatch f tags := by
  unfold hasMatchingTag specTagMatch
  cases hfm : f.frontmatter with
  | none => simp [hfm]
  | some fm =>
    cases hv : jGet fm "tags" with
    | none => simp [hfm, hv]
    | some v =>
      simp only [hfm, hv, Option.some_bind, Bool.and_eq_true, List.any_eq_true]
      constructor
      · rintro ⟨htru, t, ht, hany⟩
        obtain ⟨ft, hft, hmatch⟩ := hany
        cases ft with
        | str s =>
          exact ⟨t, ht, v, rfl, JVal.str s, hft, s, rfl, beq_iff_eq.mp hmatch⟩
        | num q => simp at hmatch
        | bool b => simp at hmatch
        | null => simp at hmatch
        | arr xs => simp at hmatch
      · rintro ⟨t, ht, v', hv', ft, hft, s, rfl, hlow⟩
        have hvv : v' = v := by
          simpa using hv'.symm
        subst hvv
        refine ⟨?_, t, ht, ?_⟩
        · cases v' with
          | arr xs => rfl
          | str s0 =>
            have hs0 : JVal.str s = JVal.str s0 := by
              simpa [fileTags] using hft
            have hss : s = s0 := by injection hs0
            subst hss
            have hsne : s ≠ "" := by
              intro hs
              apply htne t ht
              rw [← lowerStr_empty_iff, ← hlow, hs]
              rfl
            have hb : (s == "") = false := beq_eq_false_iff_ne.mpr hsne
            simp [jTruthy, hb]
          | num q => simp [fileTags] at hft
          | bool b => simp [fileTags] at hft
          | null => simp [fileTags] at hft
        · exact ⟨JVal.str s, hft, by simp [hlow]⟩

/-- C6 counterexample: with desired tag "" (a non-empty set of desired
tags, allowed by the tool schema) and a document whose tags field is
the empty-string scalar, the claim's normalized-containment condition
holds, yet the filter excludes the document (the scalar is falsy, so
the truthiness guard skips it). -/
theorem claim_C6_tag_filter_counterexample :
    specTagMatch tagsEmptyScalarFile [""] ∧
    searchByTags [tagsEmptyScalarFile] [""] = [] := by
  constructor
  · exact ⟨"", List.mem_singleton.mpr rfl, JVal.str "", rfl, JVal.str "",
      List.mem_singleton.mpr rfl, "", rfl, rfl⟩
  · rfl

/-- C6 (amended): provided every desired tag is a non-empty string, the
tag filter includes a document exactly when its frontmatter tags field,
normalized to an array even when stored as a single scalar, contains at
least one desired tag case-insensitively; the output is ordered by
lastModified descending and carries no score (its elements are plain
documents). -/
theorem claim_C6_tag_filter (files : List ContentFile) (tags : List String)
    (_hne : tags ≠ []) (htne : ∀ t ∈ tags, t ≠ "") :
    (∀ f, f ∈ searchByTags files tags ↔ f ∈ files ∧ specTagMatch f tags) ∧
    (searchByTags files tags).Pairwise (fun a b => b.lastModified ≤ a.lastModified) := by
  refine ⟨?_, sortDescBy_pairwise _ _⟩
  intro f
  unfold searchByTags
  rw [mem_sortDescBy, List.mem_filter, hasMatchingTag_iff f tags htne]

/-- Witness for the amended C6: desired tag "Tutorial" against a file
tagged "tutorial" (the spec's own example). -/
theorem claim_C6_tag_filter_witness :
    (∀ f, f ∈ searchByTags [tutorialFile] ["Tutorial"] ↔
      f ∈ [tutorialFile] ∧ specTagMatch f ["Tutorial"]) ∧
    (searchByTags [tutorialFile] ["Tutorial"]).Pairwise
      (fun a b => b.lastModified ≤ a.lastModified) :=
  claim_C6_tag_filter [tutorialFile] ["Tutorial"] (by decide) (by decide)

/-- C7: the date-range filter keeps exactly the documents with
startDate <= lastModified <= endDate (inclusive on both ends), ordered
by lastModified descending; concretely, with range
2024-01-01..2024-01-31 a document from 2024-01-15 is included and one
from 2024-02-01 is excluded. -/
theorem claim_C7_date_range (files : List ContentFile) (s e : Int) :
    ((∀ f, f ∈ searchByDateRange files s e ↔
        f ∈ files ∧ s ≤ f.lastModified ∧ f.lastModified ≤ e) ∧
      (searchByDateRange files s e).Pairwise
        (fun a b => b.lastModified ≤ a.lastModified)) ∧
    (jan15File ∈ searchByDateRange [jan15File, feb1File] jan1ms jan31ms ∧
      feb1File ∉ searchByDateRange [jan15File, feb1File] jan1ms jan31ms) := by
  refine ⟨⟨?_, sortDescBy_pairwise _ _⟩, ?_, ?_⟩
  · intro f
    unfold searchByDateRange
    rw [mem_sortDescBy, List.mem_filter]
    simp
  · rw [show searchByDateRange [jan15File, feb1File] jan1ms jan31ms = [jan15File] from rfl]
    exact List.mem_singleton.mpr rfl
  · rw [show searchByDateRange [jan15File, feb1File] jan1ms jan31ms = [jan15File] from rfl]
    intro h
    have h2 := congrArg ContentFile.lastModified (List.mem_singleton.mp h)
    exact absurd h2 (by decide)

-- Loader lemmas.

theorem extractFrontmatter_strip (s : String) :
    (extractFrontmatter s).2 = s ∨
      ∃ block, s.data = block ++ (extractFrontmatter s).2.data ∧ IsFMBlock block := by
  cases hm : matchFM s with
  | none =>
    left
    simp [extractFrontmatter, hm]
  | some q =>
    obtain ⟨w, g, cl, rest⟩ := q
    right
    obtain ⟨hdata, ⟨w0, hw0, hw⟩, ⟨w2, hw2, hcl⟩⟩ := matchFM_sound s w g cl rest hm
    refine ⟨['-', '-', '-'] ++ w0 ++ ['\n'] ++ g ++ ['\n', '-', '-', '-'] ++ w2 ++ ['\n'],
      ?_, w0, g, w2, hw0, hw2, rfl⟩
    have hb : (extractFrontmatter s).2 = String.mk rest := by
      simp [extractFrontmatter, hm]
    rw [hb]
    show s.data = _ ++ rest
    rw [hdata, hw, hcl]
    simp

/-- C5 counterexample: "note.mdx" has a markdown-family
(markdown-extended) extension by the repository's own `isMarkdownFile`,
yet the loader leaves its body raw: the frontmatter parser is not run
(frontmatter is absent), the body still begins with the raw frontmatter
delimiter block, while the frontmatter parser would have stripped it to
"body". -/
theorem claim_C5_loader_counterexample :
    isMarkdownFile "note.mdx" = true ∧
    (readContentFile "note.mdx" mdxDoc 0 0).frontmatter = none ∧
    (readContentFile "note.mdx" mdxDoc 0 0).content = mdxDoc ∧
    startsWithStr (readContentFile "note.mdx" mdxDoc 0 0).content "---\ntitle: x\n---\n"
      = true ∧
    (extractFrontmatter mdxDoc).2 = "body" := by
  exact ⟨by decide, rfl, rfl, by decide, rfl⟩

/-- C5 (amended): for files whose path ends in .md or .markdown (the
markdown and markdown-alias extensions; .mdx files are loaded raw), the
loader runs the frontmatter parser, and the resulting document's body
has the leading frontmatter delimiter block stripped: either the body
is the unchanged text (no well-formed block) or the original text is
exactly a well-formed delimiter block followed by the body. -/
theorem claim_C5_loader_strips_frontmatter (p content : String) (mt : Int) (sz : Nat)
    (h : endsWithStr p ".md" = true ∨ endsWithStr p ".markdown" = true) :
    (readContentFile p content mt sz).frontmatter = some (matterParse content).1 ∧
    (readContentFile p content mt sz).content = (extractFrontmatter content).2 ∧
    ((readContentFile p content mt sz).content = content ∨
      ∃ block, content.data = block ++ (readContentFile p content mt sz).content.data ∧
        IsFMBlock block) := by
  have hcond : (endsWithStr p ".md" || endsWithStr p ".markdown") = true := by
    rcases h with h | h <;> simp [h]
  unfold readContentFile
  simp only [hcond, if_true]
  exact ⟨trivial, rfl, extractFrontmatter_strip content⟩

/-- Witness for the amended C5 at a concrete .md file with a
frontmatter block. -/
theorem claim_C5_loader_strips_frontmatter_witness :
    (readContentFile "a.md" mdxDoc 0 0).frontmatter = some (matterParse mdxDoc).1 ∧
    (readContentFile "a.md" mdxDoc 0 0).content = (extractFrontmatter mdxDoc).2 ∧
    ((readContentFile "a.md" mdxDoc 0 0).content = mdxDoc ∨
      ∃ block, mdxDoc.data = block ++ (readContentFile "a.md" mdxDoc 0 0).content.data ∧
        IsFMBlock block) :=
  claim_C5_loader_strips_frontmatter "a.md" mdxDoc 0 0 (Or.inl (by decide))
